import Mathlib

/-!
Verification development for the `uncertainties` linear error-propagation
library.  The repository contains two parallel implementations of the same
core design:

* the top-level modules `uncertainties/ucombo.py` and `uncertainties/ufloat.py`
  (atoms are bare unique identities; an atom's standard deviation is folded
  into its weight at construction, so every atom is implicitly unit-variance);
* the `uncertainties/new/` package, whose `new/ufloat.py` keeps the standard
  deviation on the atom (`UncertaintyAtom(std_dev, uuid)`).

Python floats are modelled as rationals (`ℚ`); an IEEE double is a rational,
and the claims under study are algebraic.  Where the source explicitly
branches on `isnan` (the pruning rule of `new/ufloat.py`), NaN-ness is carried
as an explicit boolean flag next to the rational payload.  `Real.sqrt` is used
only at the outermost standard-deviation layer.

Atom identity (`uuid.uuid4()`) is modelled by a natural-number id; freshness
of independently minted atoms becomes distinctness of the ids.
-/

namespace Uncert

/-- A (possibly nested) linear combination of atoms, as stored by both
`ucombo.UCombo.ucombo_tuple` and `new.ufloat.UncertaintyCombo`: a tuple whose
entries pair either an atom or a nested combination with a float weight.
The tuple is rendered as a three-constructor list so that structural
recursion is primitive.  `α` is the atom type (bare id for the top-level
implementation, id/std-dev/NaN record for `new/ufloat.py`). -/
inductive PCombo (α : Type) where
  | nil : PCombo α
  | consAtom (a : α) (w : ℚ) (rest : PCombo α) : PCombo α
  | consCombo (sub : PCombo α) (w : ℚ) (rest : PCombo α) : PCombo α
deriving DecidableEq

/-- A Python dict from atoms to float weights, as an insertion-ordered
association list with pairwise distinct keys. -/
abbrev Dct (α : Type) := List (α × ℚ)

variable {α : Type} [DecidableEq α]

/-- Dict lookup: `d[a]` as an `Option`. -/
def dget : Dct α → α → Option ℚ
  | [], _ => none
  | p :: ps, a => if p.1 = a then some p.2 else dget ps a

/-- Dict lookup defaulting to `0`, matching `defaultdict(float)` reads. -/
def dgetD (d : Dct α) (a : α) : ℚ := (dget d a).getD 0

/-- `defaultdict(float)` accumulation `d[a] += w`: update the existing entry
in place, or append a new entry at the end (Python dicts preserve insertion
order). -/
def daccum : Dct α → α → ℚ → Dct α
  | [], a, w => [(a, w)]
  | p :: ps, a, w => if p.1 = a then (p.1, p.2 + w) :: ps else p :: daccum ps a w

/-- The key list of a dict. -/
def dkeys (d : Dct α) : List α := d.map Prod.fst

/-- Accumulate every entry of `es`, scaled by `w`, into `d`: the inner loop
`for atom, atom_weight in expanded_term.items(): expanded_dict[atom] +=
term_weight * atom_weight` of both expansion routines. -/
def addScaled : Dct α → ℚ → Dct α → Dct α
  | d, _, [] => d
  | d, w, q :: qs => addScaled (daccum d q.1 (w * q.2)) w qs

/-- The recursive-descent expansion loop shared by `ucombo.get_ucombo_dict`
and `new.ufloat.get_expanded_combo`, before pruning: walk the terms in order,
adding atom weights directly and recursively expanding nested combinations
scaled by the term weight, into the accumulator dict. -/
def expandInto (acc : Dct α) : PCombo α → Dct α
  | .nil => acc
  | .consAtom a w rest => expandInto (daccum acc a w) rest
  | .consCombo sub w rest => expandInto (addScaled acc w (expandInto [] sub)) rest

/-- The mathematical accumulated weight of atom `a` in a combination: the sum
over all occurrences of `a`, of its weight multiplied down through the
nesting. -/
def accumW : PCombo α → α → ℚ
  | .nil, _ => 0
  | .consAtom b w rest, a => (if b = a then w else 0) + accumW rest a
  | .consCombo sub w rest, a => w * accumW sub a + accumW rest a

/-- All atoms occurring anywhere in a combination, in depth-first order. -/
def atomsL : PCombo α → List α
  | .nil => []
  | .consAtom a _ rest => a :: atomsL rest
  | .consCombo sub _ rest => atomsL sub ++ atomsL rest

theorem dget_eq_none_iff (d : Dct α) (a : α) : dget d a = none ↔ a ∉ dkeys d := by
  induction d with
  | nil => simp [dget, dkeys]
  | cons p ps ih =>
    by_cases h : p.1 = a
    · simp [dget, h, dkeys]
    · simp [dget, h, dkeys, ih, Ne.symm h]

theorem dget_cons_pos (p : α × ℚ) (ps : Dct α) (b : α) (h : p.1 = b) :
    dget (p :: ps) b = some p.2 := by
  simp [dget, h]

theorem dget_cons_neg (p : α × ℚ) (ps : Dct α) (b : α) (h : p.1 ≠ b) :
    dget (p :: ps) b = dget ps b := by
  simp [dget, h]

theorem daccum_cons_pos (p : α × ℚ) (ps : Dct α) (a : α) (w : ℚ) (h : p.1 = a) :
    daccum (p :: ps) a w = (p.1, p.2 + w) :: ps := by
  subst h; simp [daccum]

theorem daccum_cons_neg (p : α × ℚ) (ps : Dct α) (a : α) (w : ℚ) (h : p.1 ≠ a) :
    daccum (p :: ps) a w = p :: daccum ps a w := by
  simp [daccum, h]

theorem mem_dkeys_daccum (d : Dct α) (a b : α) (w : ℚ) :
    b ∈ dkeys (daccum d a w) ↔ b ∈ dkeys d ∨ b = a := by
  induction d with
  | nil => simp [daccum, dkeys, eq_comm]
  | cons p ps ih =>
    by_cases h : p.1 = a
    · rw [daccum_cons_pos p ps a w h]
      simp only [dkeys, List.map_cons, List.mem_cons]
      rw [h]
      tauto
    · rw [daccum_cons_neg p ps a w h]
      simp only [dkeys, List.map_cons, List.mem_cons]
      simp only [dkeys] at ih
      rw [ih]
      tauto

theorem nodup_dkeys_daccum (d : Dct α) (a : α) (w : ℚ)
    (h : (dkeys d).Nodup) : (dkeys (daccum d a w)).Nodup := by
  induction d with
  | nil => simp [daccum, dkeys]
  | cons p ps ih =>
    simp only [dkeys, List.map_cons, List.nodup_cons] at h
    by_cases hpa : p.1 = a
    · rw [daccum_cons_pos p ps a w hpa]
      simp only [dkeys, List.map_cons, List.nodup_cons]
      exact h
    · rw [daccum_cons_neg p ps a w hpa]
      simp only [dkeys, List.map_cons, List.nodup_cons]
      refine ⟨fun hmem => ?_, ih h.2⟩
      rcases (mem_dkeys_daccum ps a p.1 w).1 hmem with h1 | h1
      · exact h.1 h1
      · exact hpa h1

theorem dget_daccum (d : Dct α) (a b : α) (w : ℚ) :
    dget (daccum d a w) b =
      if b = a then some (dgetD d a + w) else dget d b := by
  induction d with
  | nil =>
    by_cases h : b = a
    · subst h
      simp [daccum, dget, dgetD]
    · rw [if_neg h]
      simp only [daccum]
      rw [dget_cons_neg _ _ _ (fun hh : a = b => h hh.symm)]
  | cons p ps ih =>
    by_cases hpa : p.1 = a
    · subst hpa
      by_cases hba : b = p.1
      · subst hba
        rw [daccum_cons_pos _ _ _ _ rfl, dget_cons_pos _ _ _ rfl, if_pos rfl,
          dgetD, dget_cons_pos _ _ _ rfl]
        rfl
      · rw [daccum_cons_pos _ _ _ _ rfl,
          dget_cons_neg (p.1, p.2 + w) ps b (fun hh : p.1 = b => hba hh.symm),
          if_neg hba, dget_cons_neg _ _ _ (fun hh : p.1 = b => hba hh.symm)]
    · rw [daccum_cons_neg _ _ _ _ hpa]
      by_cases hbp : p.1 = b
      · rw [dget_cons_pos _ _ _ hbp, dget_cons_pos _ _ _ hbp,
          if_neg (fun hh : b = a => hpa (hbp.trans hh))]
      · rw [dget_cons_neg _ _ _ hbp, dget_cons_neg _ _ _ hbp, ih]
        by_cases hba : b = a
        · subst hba
          rw [if_pos rfl, if_pos rfl, dgetD, dgetD, dget_cons_neg _ _ _ hbp]
        · rw [if_neg hba, if_neg hba]

theorem dgetD_daccum (d : Dct α) (a b : α) (w : ℚ) :
    dgetD (daccum d a w) b = dgetD d b + if b = a then w else 0 := by
  rw [dgetD, dget_daccum]
  by_cases h : b = a
  · subst h
    simp [dgetD]
  · rw [if_neg h, if_neg h, add_zero]
    rfl

/-- The total weight attached to key `a` by the raw entries of a dict
(used to reason about iteration over `items()`). -/
def entrySum : Dct α → α → ℚ
  | [], _ => 0
  | p :: ps, a => (if p.1 = a then p.2 else 0) + entrySum ps a

theorem entrySum_eq_zero_of_not_mem (d : Dct α) (b : α) (h : b ∉ dkeys d) :
    entrySum d b = 0 := by
  induction d with
  | nil => rfl
  | cons p ps ih =>
    simp only [dkeys, List.map_cons, List.mem_cons] at h
    push_neg at h
    simp only [entrySum, if_neg (fun hh : p.1 = b => h.1 hh.symm)]
    rw [ih h.2, add_zero]

theorem entrySum_eq_dgetD (d : Dct α) (b : α) (h : (dkeys d).Nodup) :
    entrySum d b = dgetD d b := by
  induction d with
  | nil => rfl
  | cons p ps ih =>
    simp only [dkeys, List.map_cons, List.nodup_cons] at h
    by_cases hpb : p.1 = b
    · subst hpb
      rw [entrySum, if_pos rfl, dgetD, dget_cons_pos _ _ _ rfl, Option.getD_some,
        entrySum_eq_zero_of_not_mem ps p.1 h.1, add_zero]
    · rw [entrySum, if_neg hpb, dgetD, dget_cons_neg _ _ _ hpb, zero_add, ih h.2]
      rfl

theorem dgetD_addScaled (es : Dct α) (d : Dct α) (w : ℚ) (b : α) :
    dgetD (addScaled d w es) b = dgetD d b + w * entrySum es b := by
  induction es generalizing d with
  | nil => simp [addScaled, entrySum]
  | cons q qs ih =>
    rw [show addScaled d w (q :: qs) = addScaled (daccum d q.1 (w * q.2)) w qs from rfl,
      ih, dgetD_daccum, entrySum]
    by_cases h : q.1 = b
    · rw [if_pos h, if_pos h.symm]
      ring
    · rw [if_neg h, if_neg (fun hh : b = q.1 => h hh.symm)]
      ring

theorem mem_dkeys_addScaled (es : Dct α) (d : Dct α) (w : ℚ) (b : α) :
    b ∈ dkeys (addScaled d w es) ↔ b ∈ dkeys d ∨ b ∈ dkeys es := by
  induction es generalizing d with
  | nil => simp [addScaled, dkeys]
  | cons q qs ih =>
    rw [show addScaled d w (q :: qs) = addScaled (daccum d q.1 (w * q.2)) w qs from rfl,
      ih, mem_dkeys_daccum]
    simp only [dkeys, List.map_cons, List.mem_cons]
    tauto

theorem nodup_dkeys_addScaled (es : Dct α) (d : Dct α) (w : ℚ)
    (h : (dkeys d).Nodup) : (dkeys (addScaled d w es)).Nodup := by
  induction es generalizing d with
  | nil => exact h
  | cons q qs ih =>
    exact ih _ (nodup_dkeys_daccum _ _ _ h)

theorem nodup_dkeys_expandInto (c : PCombo α) (acc : Dct α)
    (h : (dkeys acc).Nodup) : (dkeys (expandInto acc c)).Nodup := by
  induction c generalizing acc with
  | nil => exact h
  | consAtom a w rest ih =>
    exact ih _ (nodup_dkeys_daccum _ _ _ h)
  | consCombo sub w rest ihs ihr =>
    exact ihr _ (nodup_dkeys_addScaled _ _ _ h)

theorem dgetD_expandInto (c : PCombo α) (acc : Dct α) (b : α) :
    dgetD (expandInto acc c) b = dgetD acc b + accumW c b := by
  induction c generalizing acc with
  | nil => simp [expandInto, accumW]
  | consAtom a w rest ih =>
    rw [show expandInto acc (.consAtom a w rest) = expandInto (daccum acc a w) rest
        from rfl, ih, dgetD_daccum, accumW]
    by_cases h : a = b
    · rw [if_pos h, if_pos h.symm]
      ring
    · rw [if_neg h, if_neg (fun hh : b = a => h hh.symm)]
      ring
  | consCombo sub w rest ihs ihr =>
    rw [show expandInto acc (.consCombo sub w rest)
        = expandInto (addScaled acc w (expandInto [] sub)) rest from rfl,
      ihr, dgetD_addScaled,
      entrySum_eq_dgetD _ _ (nodup_dkeys_expandInto sub [] (by simp [dkeys])),
      ihs, accumW]
    have : dgetD ([] : Dct α) b = 0 := rfl
    rw [this, zero_add]
    ring

theorem mem_dkeys_expandInto (c : PCombo α) (acc : Dct α) (b : α) :
    b ∈ dkeys (expandInto acc c) ↔ b ∈ dkeys acc ∨ b ∈ atomsL c := by
  induction c generalizing acc with
  | nil => simp [expandInto, atomsL]
  | consAtom a w rest ih =>
    rw [show expandInto acc (.consAtom a w rest) = expandInto (daccum acc a w) rest
        from rfl, ih, mem_dkeys_daccum]
    simp only [atomsL, List.mem_cons]
    tauto
  | consCombo sub w rest ihs ihr =>
    rw [show expandInto acc (.consCombo sub w rest)
        = expandInto (addScaled acc w (expandInto [] sub)) rest from rfl,
      ihr, mem_dkeys_addScaled, ihs]
    simp only [atomsL, List.mem_append, dkeys, List.map_nil, List.not_mem_nil]
    tauto

theorem accumW_eq_zero_of_not_mem_atoms (c : PCombo α) (b : α)
    (h : b ∉ atomsL c) : accumW c b = 0 := by
  induction c with
  | nil => rfl
  | consAtom a w rest ih =>
    simp only [atomsL, List.mem_cons] at h
    push_neg at h
    rw [accumW, if_neg (fun hh : a = b => h.1 hh.symm), ih h.2, zero_add]
  | consCombo sub w rest ihs ihr =>
    simp only [atomsL, List.mem_append] at h
    push_neg at h
    rw [accumW, ihs h.1, ihr h.2, mul_zero, zero_add]

theorem dget_eq_some_of_mem (d : Dct α) (p : α × ℚ)
    (h : (dkeys d).Nodup) (hp : p ∈ d) : dget d p.1 = some p.2 := by
  induction d with
  | nil => cases hp
  | cons q qs ih =>
    simp only [dkeys, List.map_cons, List.nodup_cons] at h
    rcases List.mem_cons.1 hp with rfl | hmem
    · exact dget_cons_pos _ _ _ rfl
    · have hne : q.1 ≠ p.1 := by
        intro hh
        exact h.1 (hh ▸ List.mem_map_of_mem Prod.fst hmem)
      rw [dget_cons_neg _ _ _ hne]
      exact ih h.2 hmem

/-- Every entry of the raw expanded dict carries exactly the mathematically
accumulated weight of its atom. -/
theorem weight_eq_accumW (c : PCombo α) (p : α × ℚ)
    (hp : p ∈ expandInto [] c) : p.2 = accumW c p.1 := by
  have hn : (dkeys (expandInto ([] : Dct α) c)).Nodup :=
    nodup_dkeys_expandInto c [] (by simp [dkeys])
  have h1 := dget_eq_some_of_mem _ p hn hp
  have h2 := dgetD_expandInto c [] p.1
  rw [dgetD, h1, Option.getD_some] at h2
  have h0 : dgetD ([] : Dct α) p.1 = 0 := rfl
  rw [h0, zero_add] at h2
  exact h2

theorem mem_dkeys_expand_iff (c : PCombo α) (b : α) :
    b ∈ dkeys (expandInto [] c) ↔ b ∈ atomsL c := by
  rw [mem_dkeys_expandInto]
  simp [dkeys]

theorem dgetD_expand (c : PCombo α) (b : α) :
    dgetD (expandInto [] c) b = accumW c b := by
  rw [dgetD_expandInto]
  have h0 : dgetD ([] : Dct α) b = 0 := rfl
  rw [h0, zero_add]

theorem sum_map_eq_finset_sum (d : Dct α) (g : α → ℚ → ℚ)
    (h : (dkeys d).Nodup) :
    (d.map (fun p => g p.1 p.2)).sum
      = ∑ a ∈ (dkeys d).toFinset, g a (dgetD d a) := by
  induction d with
  | nil => simp [dkeys]
  | cons p ps ih =>
    have hck : dkeys (p :: ps) = p.1 :: dkeys ps := rfl
    rw [hck, List.nodup_cons] at h
    have hnot : p.1 ∉ (dkeys ps).toFinset := by simpa using h.1
    rw [List.map_cons, List.sum_cons, hck, List.toFinset_cons,
      Finset.sum_insert hnot, ih h.2]
    congr 1
    · rw [dgetD, dget_cons_pos _ _ _ rfl, Option.getD_some]
    · refine Finset.sum_congr rfl fun a ha => ?_
      have hne : p.1 ≠ a := by
        intro hh
        rw [hh] at hnot
        exact hnot ha
      have hda : dgetD (p :: ps) a = dgetD ps a := by
        rw [dgetD, dget_cons_neg p ps a hne]
        rfl
      rw [hda]

omit [DecidableEq α] in
theorem sum_map_filter_eq (d : Dct α) (φ : α × ℚ → Bool) (g : α → ℚ → ℚ)
    (h0 : ∀ p ∈ d, φ p = false → g p.1 p.2 = 0) :
    ((d.filter φ).map (fun p => g p.1 p.2)).sum
      = (d.map (fun p => g p.1 p.2)).sum := by
  induction d with
  | nil => rfl
  | cons p ps ih =>
    have hps : ∀ q ∈ ps, φ q = false → g q.1 q.2 = 0 :=
      fun q hq => h0 q (List.mem_cons_of_mem p hq)
    by_cases hφ : φ p = true
    · rw [List.filter_cons_of_pos hφ]
      simp only [List.map_cons, List.sum_cons]
      rw [ih hps]
    · rw [List.filter_cons_of_neg (by simpa using hφ)]
      simp only [List.map_cons, List.sum_cons]
      rw [ih hps, h0 p (List.mem_cons_self p ps) (by simpa using hφ), zero_add]

omit [DecidableEq α] in
theorem nodup_dkeys_filter (d : Dct α) (φ : α × ℚ → Bool)
    (h : (dkeys d).Nodup) : (dkeys (d.filter φ)).Nodup :=
  ((List.filter_sublist d).map Prod.fst).nodup h

theorem dget_filter (d : Dct α) (φ : α × ℚ → Bool) (b : α)
    (h : (dkeys d).Nodup) :
    dget (d.filter φ) b
      = (dget d b).bind (fun w => if φ (b, w) then some w else none) := by
  induction d with
  | nil => rfl
  | cons p ps ih =>
    obtain ⟨pa, pw⟩ := p
    simp only [dkeys, List.map_cons, List.nodup_cons] at h
    by_cases hpb : pa = b
    · subst hpb
      rw [dget_cons_pos (pa, pw) ps pa rfl]
      have hred : ((some pw).bind fun w => if φ (pa, w) = true then some w else none)
          = if φ (pa, pw) = true then some pw else none := rfl
      by_cases hφ : φ (pa, pw) = true
      · rw [List.filter_cons_of_pos hφ, dget_cons_pos (pa, pw) _ pa rfl, hred,
          if_pos hφ]
      · rw [List.filter_cons_of_neg (by simpa using hφ)]
        have hnone : dget (ps.filter φ) pa = none := by
          rw [dget_eq_none_iff]
          intro hmem
          exact h.1 (List.mem_map.2 (by
            rcases List.mem_map.1 hmem with ⟨q, hq, hqa⟩
            exact ⟨q, List.mem_of_mem_filter hq, hqa⟩))
        rw [hnone, hred, if_neg hφ]
    · rw [dget_cons_neg (pa, pw) ps b hpb]
      by_cases hφ : φ (pa, pw) = true
      · rw [List.filter_cons_of_pos hφ, dget_cons_neg (pa, pw) _ b hpb]
        exact ih h.2
      · rw [List.filter_cons_of_neg (by simpa using hφ)]
        exact ih h.2

end Uncert

namespace Uncert.NewU

/-!
Model of `uncertainties/new/ufloat.py`.

`UncertaintyAtom` is the frozen dataclass `UncertaintyAtom(std_dev, uuid)`.
The float `std_dev` is modelled as a rational together with an explicit
`sdNaN` flag recording `isnan(std_dev)` (the expansion code branches on it);
when `sdNaN` is true the rational payload is irrelevant and kept at `0`.
The `uuid.uuid4()` identity is a natural number; two calls of the constructor
mint distinct ids.
-/
structure UncertaintyAtom where
  std_dev : ℚ
  sdNaN : Bool
  uuid : ℕ
deriving DecidableEq

/-- `new/ufloat.py`'s `UncertaintyCombo`: nested weighted terms over
`UncertaintyAtom`. -/
abbrev NCombo := Uncert.PCombo UncertaintyAtom

/-- Python's `atom.std_dev == 0`: false whenever `std_dev` is NaN. -/
def pyEqZeroSd (a : UncertaintyAtom) : Prop := a.sdNaN = false ∧ a.std_dev = 0

instance (a : UncertaintyAtom) : Decidable (pyEqZeroSd a) :=
  inferInstanceAs (Decidable (_ ∧ _))

/-- The retention condition of `get_expanded_combo` (`new/ufloat.py` line 79):
an accumulated entry is skipped (`continue`) when `atom.std_dev == 0` or
(`weight == 0 and not isnan(atom.std_dev)`), and kept otherwise. -/
def keepEntry (p : UncertaintyAtom × ℚ) : Bool :=
  if pyEqZeroSd p.1 ∨ (p.2 = 0 ∧ p.1.sdNaN = false) then false else true

theorem keepEntry_eq_false_iff (p : UncertaintyAtom × ℚ) :
    keepEntry p = false ↔ pyEqZeroSd p.1 ∨ (p.2 = 0 ∧ p.1.sdNaN = false) := by
  by_cases hc : pyEqZeroSd p.1 ∨ (p.2 = 0 ∧ p.1.sdNaN = false)
  · simp [keepEntry, hc]
  · simp [keepEntry, hc]

theorem keepEntry_eq_true_iff (p : UncertaintyAtom × ℚ) :
    keepEntry p = true ↔ ¬(pyEqZeroSd p.1 ∨ (p.2 = 0 ∧ p.1.sdNaN = false)) := by
  by_cases hc : pyEqZeroSd p.1 ∨ (p.2 = 0 ∧ p.1.sdNaN = false)
  · simp [keepEntry, hc]
  · simp [keepEntry, hc]

/-- `get_expanded_combo`: recursively expand a nested combination into the
canonical atom-to-weight dict, then prune by `keepEntry`.  The recursive
walk itself is the shared `expandInto` loop. -/
def get_expanded_combo (c : NCombo) : Uncert.Dct UncertaintyAtom :=
  (Uncert.expandInto [] c).filter keepEntry

/-- The radicand of `get_std_dev`: `sum((weight*atom.std_dev)**2)` over the
expanded combination. -/
def nvariance (c : NCombo) : ℚ :=
  ((get_expanded_combo c).map (fun p => (p.2 * p.1.std_dev) ^ 2)).sum

/-- Whether `get_std_dev` returns NaN: IEEE arithmetic propagates a NaN
`atom.std_dev` of any retained entry through `(weight*atom.std_dev)**2`,
`sum` and `sqrt` (note `0.0 * nan` is `nan`). -/
def std_dev_isNaN (c : NCombo) : Bool :=
  (get_expanded_combo c).any (fun p => p.1.sdNaN)

/-- A Python float result that is either NaN or a real number. -/
inductive RFloat where
  | nan : RFloat
  | val (x : ℝ) : RFloat

/-- `get_std_dev` of `new/ufloat.py`: the square root of the sum of squares
of `weight*atom.std_dev` over the expanded combination, NaN if any retained
atom's std_dev is NaN. -/
noncomputable def get_std_dev (c : NCombo) : RFloat :=
  if std_dev_isNaN c then .nan else .val (Real.sqrt ((nvariance c : ℚ) : ℝ))

/-- A float argument as passed to `UFloat.__init__`: rational payload plus a
NaN flag. -/
structure PyFlt where
  q : ℚ
  isNaN : Bool
deriving DecidableEq

/-- Python `uncertainty < 0` on a float: false when NaN. -/
def pyLtZero (f : PyFlt) : Bool := !f.isNaN && decide (f.q < 0)

inductive PyErr where
  | valueError : PyErr
  | typeError : PyErr
deriving DecidableEq

/-- The `UFloat` of `new/ufloat.py`: a nominal value paired with an
uncertainty combination. -/
structure UFloat where
  val : ℚ
  uncertainty_lin_combo : NCombo
deriving DecidableEq

/-- `UFloat.__init__` for a real `uncertainty` argument (`new/ufloat.py`
lines 110-128): raise `ValueError` if `uncertainty < 0`, otherwise mint a
fresh `UncertaintyAtom` carrying that std_dev and wrap it with weight 1.
`aid` is the fresh uuid. -/
def UFloat_init (aid : ℕ) (value : ℚ) (uncertainty : PyFlt) :
    Except PyErr UFloat :=
  if pyLtZero uncertainty then .error .valueError
  else .ok ⟨value, .consAtom ⟨uncertainty.q, uncertainty.isNaN, aid⟩ 1 .nil⟩

/-- Construction from a non-NaN std_dev `s` (the successful branch of
`UFloat_init` at `PyFlt.mk s false`). -/
def mkUFloat (aid : ℕ) (v s : ℚ) : UFloat :=
  ⟨v, .consAtom ⟨s, false, aid⟩ 1 .nil⟩

/-- The `std_dev` property of `UFloat`. -/
noncomputable def UFloat.std_dev (x : UFloat) : RFloat :=
  get_std_dev x.uncertainty_lin_combo

/-- `UFloat.__add__`, i.e. `ToUFuncPositional(('1', '1'))(float.__add__)`
applied to two `UFloat` operands: the nominal values are added and the new
combination nests each operand's combination under the evaluated derivative
weight 1 (`new/umath.py` `float_funcs_dict['__add__']`, the `wrapped`
closure of the lifting decorator). -/
def uadd (x y : UFloat) : UFloat :=
  ⟨x.val + y.val,
    .consCombo x.uncertainty_lin_combo 1
      (.consCombo y.uncertainty_lin_combo 1 .nil)⟩

/-- `UFloat.__sub__`, i.e. `ToUFuncPositional(('1', '-1'))(float.__sub__)`
applied to two `UFloat` operands (`float_funcs_dict['__sub__']`). -/
def usub (x y : UFloat) : UFloat :=
  ⟨x.val - y.val,
    .consCombo x.uncertainty_lin_combo 1
      (.consCombo y.uncertainty_lin_combo (-1) .nil)⟩

/-- The sum of squared weighted std_devs over the canonical expansion equals
the same sum over the mathematically accumulated weights of all atoms:
pruning only ever removes entries whose contribution is exactly zero. -/
theorem nvariance_eq (c : NCombo) :
    nvariance c
      = ∑ a ∈ (Uncert.atomsL c).toFinset,
          (Uncert.accumW c a * a.std_dev) ^ 2 := by
  have hnody : (Uncert.dkeys (Uncert.expandInto [] c)).Nodup :=
    Uncert.nodup_dkeys_expandInto c [] (by simp [Uncert.dkeys])
  have h1 : nvariance c
      = ((Uncert.expandInto [] c).map
          (fun p => (p.2 * p.1.std_dev) ^ 2)).sum := by
    refine Uncert.sum_map_filter_eq _ _
      (fun (a : UncertaintyAtom) (w : ℚ) => (w * a.std_dev) ^ 2) ?_
    intro p hp hfalse
    rcases (keepEntry_eq_false_iff p).1 hfalse with ⟨hn, he⟩ | ⟨hw, hn⟩
    · show (p.2 * p.1.std_dev) ^ 2 = 0
      rw [he, mul_zero]
      norm_num
    · show (p.2 * p.1.std_dev) ^ 2 = 0
      rw [hw, zero_mul]
      norm_num
  rw [h1]
  have h2 := Uncert.sum_map_eq_finset_sum (Uncert.expandInto [] c)
    (fun (a : UncertaintyAtom) (w : ℚ) => (w * a.std_dev) ^ 2) hnody
  rw [show ((Uncert.expandInto [] c).map (fun p => (p.2 * p.1.std_dev) ^ 2)).sum
      = ∑ a ∈ (Uncert.dkeys (Uncert.expandInto [] c)).toFinset,
          (Uncert.dgetD (Uncert.expandInto [] c) a * a.std_dev) ^ 2 from h2]
  have hset : (Uncert.dkeys (Uncert.expandInto [] c)).toFinset
      = (Uncert.atomsL c).toFinset := by
    apply Finset.ext
    intro a
    simp only [List.mem_toFinset]
    exact Uncert.mem_dkeys_expand_iff c a
  rw [hset]
  refine Finset.sum_congr rfl fun a _ => ?_
  rw [Uncert.dgetD_expand]

/-- If no atom anywhere in the combination has NaN std_dev then the computed
std_dev is not NaN. -/
theorem std_dev_isNaN_false (c : NCombo)
    (h : ∀ a ∈ Uncert.atomsL c, a.sdNaN = false) :
    std_dev_isNaN c = false := by
  rw [std_dev_isNaN, List.any_eq_false]
  intro p hp
  have hraw : p ∈ Uncert.expandInto [] c := List.mem_of_mem_filter hp
  have hkey : p.1 ∈ Uncert.dkeys (Uncert.expandInto [] c) :=
    List.mem_map_of_mem Prod.fst hraw
  have hatom : p.1 ∈ Uncert.atomsL c := (Uncert.mem_dkeys_expand_iff c p.1).1 hkey
  simp [h p.1 hatom]

theorem accumW_mk_self (s : ℚ) (b : Bool) (n : ℕ) :
    Uncert.accumW (.consAtom ⟨s, b, n⟩ 1 .nil) (⟨s, b, n⟩ : UncertaintyAtom) = 1 := by
  simp [Uncert.accumW]

/-- Helper: the std_dev reported for a freshly constructed `UFloat` with
non-NaN std_dev `s ≥ 0` is exactly `s`. -/
theorem mkUFloat_std_dev (a1 : ℕ) (v1 s1 : ℚ) (hs1 : 0 ≤ s1) :
    (mkUFloat a1 v1 s1).std_dev = .val ((s1 : ℝ)) := by
  have hnn : std_dev_isNaN (mkUFloat a1 v1 s1).uncertainty_lin_combo = false := by
    refine std_dev_isNaN_false _ ?_
    intro a ha
    simp only [mkUFloat, Uncert.atomsL, List.mem_singleton] at ha
    rw [ha]
  rw [UFloat.std_dev, get_std_dev, hnn]
  simp only [Bool.false_eq_true, if_false, RFloat.val.injEq]
  have hcombo : (mkUFloat a1 v1 s1).uncertainty_lin_combo
      = .consAtom ⟨s1, false, a1⟩ 1 .nil := rfl
  rw [hcombo, nvariance_eq]
  have hat : Uncert.atomsL ((.consAtom ⟨s1, false, a1⟩ 1 .nil : NCombo))
      = [⟨s1, false, a1⟩] := rfl
  rw [hat]
  simp only [List.toFinset_cons, List.toFinset_nil, insert_emptyc_eq,
    Finset.sum_singleton]
  rw [accumW_mk_self, one_mul]
  rw [show (((s1 ^ 2 : ℚ) : ℝ)) = (s1 : ℝ) ^ 2 by push_cast; ring]
  exact Real.sqrt_sq (by exact_mod_cast hs1)

/-- C1: the `std_dev` accessor computes the root of the sum, over every atom
of the combination with its fully accumulated weight, of
`(weight*atom.std_dev)**2`; in particular the sum of two independently
constructed values with uncertainties `s1` and `s2` has std_dev
`sqrt(s1^2+s2^2)`, which differs from `s1+s2` whenever both are positive. -/
theorem claim1_std_dev_quadrature (c : NCombo)
    (hna : std_dev_isNaN c = false)
    (v1 v2 s1 s2 : ℚ) (a1 a2 : ℕ) (hne : a1 ≠ a2)
    (hs1 : 0 ≤ s1) (hs2 : 0 ≤ s2) :
    get_std_dev c
      = .val (Real.sqrt ((∑ a ∈ (Uncert.atomsL c).toFinset,
          (Uncert.accumW c a * a.std_dev) ^ 2 : ℚ) : ℝ))
    ∧ (mkUFloat a1 v1 s1).std_dev = .val ((s1 : ℝ))
    ∧ (uadd (mkUFloat a1 v1 s1) (mkUFloat a2 v2 s2)).std_dev
        = .val (Real.sqrt ((s1 : ℝ) ^ 2 + (s2 : ℝ) ^ 2))
    ∧ (0 < s1 → 0 < s2 →
        Real.sqrt ((s1 : ℝ) ^ 2 + (s2 : ℝ) ^ 2) ≠ (s1 : ℝ) + (s2 : ℝ)) := by
  refine ⟨?_, mkUFloat_std_dev a1 v1 s1 hs1, ?_, ?_⟩
  · rw [get_std_dev, hna]
    simp only [Bool.false_eq_true, if_false, RFloat.val.injEq]
    rw [nvariance_eq]
  · set A1 : UncertaintyAtom := ⟨s1, false, a1⟩ with hA1
    set A2 : UncertaintyAtom := ⟨s2, false, a2⟩ with hA2
    have hAne : A1 ≠ A2 := by
      rw [hA1, hA2]
      intro h
      exact hne (congrArg UncertaintyAtom.uuid h)
    have hcombo : (uadd (mkUFloat a1 v1 s1) (mkUFloat a2 v2 s2)).uncertainty_lin_combo
        = .consCombo (.consAtom A1 1 .nil) 1
            (.consCombo (.consAtom A2 1 .nil) 1 .nil) := rfl
    have hnn : std_dev_isNaN
        (uadd (mkUFloat a1 v1 s1) (mkUFloat a2 v2 s2)).uncertainty_lin_combo
        = false := by
      refine std_dev_isNaN_false _ ?_
      intro a ha
      rw [hcombo] at ha
      simp only [Uncert.atomsL, List.append_nil, List.mem_append,
        List.mem_singleton] at ha
      rcases ha with rfl | rfl
      · rfl
      · rfl
    rw [UFloat.std_dev, get_std_dev, hnn]
    simp only [Bool.false_eq_true, if_false, RFloat.val.injEq]
    rw [nvariance_eq, hcombo]
    have hat : Uncert.atomsL
        (Uncert.PCombo.consCombo (.consAtom A1 1 .nil) 1
          (.consCombo (.consAtom A2 1 .nil) 1 (Uncert.PCombo.nil)))
        = [A1, A2] := rfl
    rw [hat]
    have hts : ([A1, A2]).toFinset = {A1, A2} := by
      simp
    rw [hts, Finset.sum_pair hAne]
    have hw1 : Uncert.accumW
        (Uncert.PCombo.consCombo (.consAtom A1 1 .nil) 1
          (.consCombo (.consAtom A2 1 .nil) 1 (Uncert.PCombo.nil))) A1 = 1 := by
      simp [Uncert.accumW, hAne, Ne.symm hAne]
    have hw2 : Uncert.accumW
        (Uncert.PCombo.consCombo (.consAtom A1 1 .nil) 1
          (.consCombo (.consAtom A2 1 .nil) 1 (Uncert.PCombo.nil))) A2 = 1 := by
      simp [Uncert.accumW, hAne, Ne.symm hAne]
    rw [hw1, hw2, one_mul, one_mul]
    have : A1.std_dev = s1 := rfl
    rw [this]
    have : A2.std_dev = s2 := rfl
    rw [this]
    push_cast
    rfl
  · intro h1 h2 heq
    have h1r : (0 : ℝ) < (s1 : ℝ) := by exact_mod_cast h1
    have h2r : (0 : ℝ) < (s2 : ℝ) := by exact_mod_cast h2
    have hX : (0 : ℝ) ≤ (s1 : ℝ) ^ 2 + (s2 : ℝ) ^ 2 := by positivity
    have hsq := Real.sq_sqrt hX
    rw [heq] at hsq
    nlinarith [mul_pos h1r h2r]

/-- Witness for C1 at a concrete combination and concrete constructions. -/
theorem claim1_std_dev_quadrature_witness :
    get_std_dev (.consAtom ⟨1, false, 0⟩ 1 .nil)
      = .val (Real.sqrt ((∑ a ∈ (Uncert.atomsL
          ((.consAtom ⟨1, false, 0⟩ 1 .nil : NCombo))).toFinset,
          (Uncert.accumW (.consAtom ⟨1, false, 0⟩ 1 .nil) a * a.std_dev) ^ 2
            : ℚ) : ℝ))
    ∧ (mkUFloat 0 3 1).std_dev = .val ((1 : ℚ) : ℝ)
    ∧ (uadd (mkUFloat 0 3 1) (mkUFloat 1 4 2)).std_dev
        = .val (Real.sqrt (((1 : ℚ) : ℝ) ^ 2 + ((2 : ℚ) : ℝ) ^ 2))
    ∧ (0 < (1 : ℚ) → 0 < (2 : ℚ) →
        Real.sqrt (((1 : ℚ) : ℝ) ^ 2 + ((2 : ℚ) : ℝ) ^ 2)
          ≠ ((1 : ℚ) : ℝ) + ((2 : ℚ) : ℝ)) :=
  claim1_std_dev_quadrature (.consAtom ⟨1, false, 0⟩ 1 .nil) (by decide)
    3 4 1 2 0 1 (by decide) (by decide) (by decide)

/-- C2 (amended): subtracting a value from itself gives nominal value 0 and
std_dev exactly 0 — the shared atoms' weights `+1` and `-1` cancel exactly
during expansion and every zero-weight entry is pruned — provided no atom of
the value's combination has NaN std_dev. -/
theorem claim2_sub_self_exact_zero (x : UFloat)
    (hnan : ∀ a ∈ Uncert.atomsL x.uncertainty_lin_combo, a.sdNaN = false) :
    (usub x x).val = 0
    ∧ get_expanded_combo (usub x x).uncertainty_lin_combo = []
    ∧ (usub x x).std_dev = .val 0 := by
  set u := x.uncertainty_lin_combo with hu
  have hcombo : (usub x x).uncertainty_lin_combo
      = .consCombo u 1 (.consCombo u (-1) .nil) := rfl
  have hacc : ∀ a, Uncert.accumW (.consCombo u 1 (.consCombo u (-1)
      (Uncert.PCombo.nil))) a = 0 := by
    intro a
    simp only [Uncert.accumW]
    ring
  have hexp : get_expanded_combo (usub x x).uncertainty_lin_combo = [] := by
    rw [hcombo, get_expanded_combo]
    rw [List.filter_eq_nil_iff]
    intro p hp
    have hw := Uncert.weight_eq_accumW _ p hp
    rw [hacc p.1] at hw
    have hkey : p.1 ∈ Uncert.dkeys (Uncert.expandInto []
        (Uncert.PCombo.consCombo u 1 (.consCombo u (-1) .nil))) :=
      List.mem_map_of_mem Prod.fst hp
    have hatom := (Uncert.mem_dkeys_expand_iff _ p.1).1 hkey
    simp only [Uncert.atomsL, List.append_nil, List.mem_append] at hatom
    have hnn : p.1.sdNaN = false := by
      rcases hatom with h | h
      · exact hnan p.1 h
      · exact hnan p.1 h
    rw [Bool.not_eq_true, keepEntry_eq_false_iff]
    exact Or.inr ⟨hw, hnn⟩
  refine ⟨by simp [usub], hexp, ?_⟩
  rw [UFloat.std_dev, get_std_dev]
  have hna : std_dev_isNaN (usub x x).uncertainty_lin_combo = false := by
    rw [std_dev_isNaN, hexp]
    rfl
  rw [hna]
  simp only [Bool.false_eq_true, if_false, RFloat.val.injEq]
  have hv : nvariance (usub x x).uncertainty_lin_combo = 0 := by
    rw [nvariance, hexp]
    rfl
  rw [hv]
  simp

/-- Witness for C2 (amended) at a concrete value with std_dev 1. -/
theorem claim2_sub_self_exact_zero_witness :
    (usub (mkUFloat 0 5 1) (mkUFloat 0 5 1)).val = 0
    ∧ get_expanded_combo
        (usub (mkUFloat 0 5 1) (mkUFloat 0 5 1)).uncertainty_lin_combo = []
    ∧ (usub (mkUFloat 0 5 1) (mkUFloat 0 5 1)).std_dev = .val 0 :=
  claim2_sub_self_exact_zero (mkUFloat 0 5 1) (by decide)

/-- C2 counterexample: for `x = UFloat(1, float('nan'))` — accepted by the
constructor, since `nan < 0` is false — the zero-weight NaN atom is retained
by the expansion of `x - x` and `0.0*nan` propagates, so the std_dev of
`x - x` is NaN, not 0: the claim fails for values whose combination holds a
NaN-std_dev atom. -/
theorem claim2_counterexample :
    UFloat_init 0 1 ⟨0, true⟩
      = Except.ok ⟨1, .consAtom ⟨0, true, 0⟩ 1 .nil⟩
    ∧ (usub ⟨1, .consAtom ⟨0, true, 0⟩ 1 .nil⟩
        ⟨1, .consAtom ⟨0, true, 0⟩ 1 .nil⟩).std_dev ≠ .val 0 := by
  constructor
  · rfl
  · rw [UFloat.std_dev, get_std_dev]
    have hna : std_dev_isNaN
        (usub (⟨1, .consAtom ⟨0, true, 0⟩ 1 .nil⟩ : UFloat)
          ⟨1, .consAtom ⟨0, true, 0⟩ 1 .nil⟩).uncertainty_lin_combo = true := by
      norm_num [std_dev_isNaN, get_expanded_combo, usub, Uncert.expandInto,
        Uncert.addScaled, Uncert.daccum, keepEntry, pyEqZeroSd, List.filter]
    rw [hna]
    simp only [if_true]
    intro h
    exact RFloat.noConfusion h

/-- C7: for every combination, the canonical expanded mapping never
contains an entry whose accumulated weight is exactly zero unless that
entry's atom has NaN std_dev — and conversely, an atom of the combination
whose std_dev is NaN IS retained in the mapping even when its accumulated
weight is zero (so that NaN propagates to the std_dev instead of being
silently dropped).  The pruning conjunct is unconditional; only the
retention conjunct asks for the zero-weight NaN atom it speaks about. -/
theorem claim7_zero_weight_pruned_nan_retained (c : NCombo) :
    (∀ p ∈ get_expanded_combo c, p.2 = 0 → p.1.sdNaN = true)
    ∧ (∀ a ∈ Uncert.atomsL c, Uncert.accumW c a = 0 → a.sdNaN = true
        → (a, 0) ∈ get_expanded_combo c) := by
  constructor
  · intro p hp hw0
    have hk : keepEntry p = true := List.of_mem_filter hp
    rw [keepEntry_eq_true_iff] at hk
    by_contra hfn
    exact hk (Or.inr ⟨hw0, (Bool.not_eq_true _) ▸ hfn⟩)
  · intro a ha hw hnan
    have hkey : a ∈ Uncert.dkeys (Uncert.expandInto [] c) :=
      (Uncert.mem_dkeys_expand_iff c a).2 ha
    rcases List.mem_map.1 hkey with ⟨q, hq, hqa⟩
    have hqw := Uncert.weight_eq_accumW c q hq
    rw [hqa, hw] at hqw
    have hqeq : q = (a, 0) := by
      cases q
      simp only [Prod.mk.injEq]
      exact ⟨hqa, hqw⟩
    rw [hqeq] at hq
    refine List.mem_filter.2 ⟨hq, ?_⟩
    simp [keepEntry_eq_true_iff, pyEqZeroSd, hnan]

/-- Witness for C7: at a combination where the NaN atom's weights cancel to
0 next to an ordinary atom, the zero-weight entry in the mapping is the NaN
atom's and that atom is indeed retained. -/
theorem claim7_zero_weight_pruned_nan_retained_witness :
    ((⟨0, true, 0⟩, 0) : UncertaintyAtom × ℚ).1.sdNaN = true
    ∧ ((⟨0, true, 0⟩ : UncertaintyAtom), 0)
        ∈ get_expanded_combo
          (.consCombo (.consAtom ⟨0, true, 0⟩ 1 .nil) 1
            (.consCombo (.consAtom ⟨0, true, 0⟩ 1 .nil) (-1)
              (.consAtom ⟨1, false, 1⟩ 1 .nil))) := by
  have h := claim7_zero_weight_pruned_nan_retained
    (.consCombo (.consAtom ⟨0, true, 0⟩ 1 .nil) 1
      (.consCombo (.consAtom ⟨0, true, 0⟩ 1 .nil) (-1)
        (.consAtom ⟨1, false, 1⟩ 1 .nil)))
  refine ⟨?_, ?_⟩
  · refine h.1 (⟨0, true, 0⟩, 0) ?_ rfl
    norm_num [get_expanded_combo, Uncert.expandInto, Uncert.addScaled,
      Uncert.daccum, keepEntry, pyEqZeroSd, List.filter,
      UncertaintyAtom.mk.injEq]
  · refine h.2 ⟨0, true, 0⟩ (by decide) ?_ rfl
    norm_num [Uncert.accumW, UncertaintyAtom.mk.injEq]

end Uncert.NewU

namespace Uncert

theorem mem_of_dget_eq_some {α : Type} [DecidableEq α] (d : Dct α) (a : α)
    (w : ℚ) (h : dget d a = some w) : (a, w) ∈ d := by
  induction d with
  | nil => exact Option.noConfusion h
  | cons p ps ih =>
    by_cases hpa : p.1 = a
    · rw [dget_cons_pos p ps a hpa] at h
      have : p = (a, w) := by
        cases p
        simp only [Prod.mk.injEq]
        exact ⟨hpa, Option.some_injective _ h⟩
      rw [← this]
      exact List.mem_cons_self p ps
    · rw [dget_cons_neg p ps a hpa] at h
      exact List.mem_cons_of_mem p (ih h)

/-- Python `dict.__eq__`: two dicts are equal when they contain exactly the
same key-value pairs, regardless of insertion order. -/
def pyDictEq {α : Type} [DecidableEq α] (d1 d2 : Dct α) : Bool :=
  if (∀ p ∈ d1, dget d2 p.1 = some p.2) ∧ (∀ p ∈ d2, dget d1 p.1 = some p.2)
  then true else false

theorem pyDictEq_true_iff {α : Type} [DecidableEq α] (d1 d2 : Dct α) :
    pyDictEq d1 d2 = true
      ↔ ((∀ p ∈ d1, dget d2 p.1 = some p.2)
          ∧ (∀ p ∈ d2, dget d1 p.1 = some p.2)) := by
  by_cases hc : (∀ p ∈ d1, dget d2 p.1 = some p.2)
      ∧ (∀ p ∈ d2, dget d1 p.1 = some p.2)
  · simp [pyDictEq, hc]
  · simp [pyDictEq, hc]

end Uncert

namespace Uncert.TopU

/-!
Model of the top-level modules `uncertainties/ucombo.py`,
`uncertainties/ufloat.py` and of `uncertainties/new/covariance.py` (whose
code reads values through the `uncertainty.expanded_dict` interface these
modules provide).  Here a `UAtom` is a bare unique identity (a `uuid4`,
modelled as `ℕ`): the standard deviation of an uncertainty source is folded
into its weight when the `UFloat` is constructed, so atoms are implicitly
unit-variance and `get_std_dev` is the root of the plain sum of squared
weights. -/

/-- Combinations over bare atom identities (`ucombo.UCombo`). -/
abbrev ACombo := Uncert.PCombo ℕ

/-- `get_ucombo_dict` of `ucombo.py`: expand recursively, then prune entries
with `weight != 0` kept (`{atom: weight for ... if weight != 0}`). -/
def get_ucombo_dict (c : ACombo) : Uncert.Dct ℕ :=
  (Uncert.expandInto [] c).filter (fun p => if p.2 = 0 then false else true)

/-- The radicand of `ucombo.get_std_dev`: `sum(weight**2 for weight in
ucombo_dict.values())`. -/
def avariance (d : Uncert.Dct ℕ) : ℚ := (d.map (fun p => p.2 ^ 2)).sum

/-- `ucombo.get_std_dev`: `sqrt(sum(weight**2 ...))` over an expanded
dict. -/
noncomputable def get_std_dev (d : Uncert.Dct ℕ) : ℝ :=
  Real.sqrt ((avariance d : ℚ) : ℝ)

/-- The top-level `ufloat.UFloat`: a float nominal value and a `UCombo`
uncertainty. -/
structure UFloat where
  value : ℚ
  uncertainty : ACombo
deriving DecidableEq

/-- The `expanded_dict` property chain `self.u.expanded_dict`. -/
def UFloat.expanded_dict (x : UFloat) : Uncert.Dct ℕ :=
  get_ucombo_dict x.uncertainty

/-- `UFloat.__init__` with a real `uncertainty` argument (`ufloat.py` lines
37-56): the value is stored and a fresh `UAtom` is minted and paired with
the uncertainty as its weight.  Note two slips of the unfinished top-level
rewrite, recorded in the verification results: the constructor performs no
check that `uncertainty` is non-negative (unlike `new/ufloat.py`), and it
passes a `tag=` keyword to `ucombo.UAtom`, which accepts no such argument
(so at runtime every such construction would raise `TypeError`); the tag
argument is elided here, the absent negativity check is modelled
faithfully. -/
def UFloat_init (aid : ℕ) (value uncertainty : ℚ) : UFloat :=
  ⟨value, .consAtom aid uncertainty .nil⟩

/-- An arbitrary operand of `UFloat.__eq__`. -/
inductive PyOperand where
  | uf (x : UFloat) : PyOperand
  | real (q : ℚ) : PyOperand
  | other : PyOperand

/-- `UFloat.__eq__` between two `UFloat`s: `self.n == other.n and
self.u.expanded_dict == other.u.expanded_dict`. -/
def ufloatEq (x y : UFloat) : Bool :=
  decide (x.value = y.value) && Uncert.pyDictEq x.expanded_dict y.expanded_dict

/-- `UFloat.__eq__` (`ufloat.py` lines 83-86): any operand that is not a
`UFloat` — including a plain real — compares unequal; a `UFloat` operand is
compared by nominal value and expanded dict.  The method is total: it never
raises. -/
def pyEq (x : UFloat) : PyOperand → Bool
  | .uf y => ufloatEq x y
  | .real _ => false
  | .other => false

/-- `UFloat.__hash__` (`ufloat.py` lines 135-136):
`hash((hash(self.val), hash(self.uncertainty)))`.  `UCombo` is a frozen
dataclass, so `hash(self.uncertainty)` is computed from the raw
`ucombo_tuple` structure (not from the expansion).  The Python hash is
modelled as the pair of the hashed data itself: two objects get equal model
hashes exactly when the data fed to the hash coincides (the real hash is a
fixed function of that data; distinct data collide only accidentally). -/
def UFloat.hashModel (x : UFloat) : ℚ × ACombo := (x.value, x.uncertainty)

/-- `UFloat.__add__` for two `UFloat` operands: the operators of the
top-level `UFloat` are generated by lifting the `float` operators with the
derivative table `float_funcs_dict` of `new/umath.py` through
`ToUFuncPositional` of `new/func_conversion.py`; for `__add__` the
derivative strings are `('1', '1')`, so `wrapped` returns
`UFloat(x.val + y.val, UCombo(((x.uncertainty, 1.0), (y.uncertainty,
1.0))))`. -/
def uadd (x y : UFloat) : UFloat :=
  ⟨x.value + y.value, .consCombo x.uncertainty 1 (.consCombo y.uncertainty 1 .nil)⟩

/-- `float + UFloat`, dispatched to `UFloat.__radd__` (derivatives
`('1', '1')`): only the `UFloat` operand contributes a term to the new
combination. -/
def radd (r : ℚ) (y : UFloat) : UFloat :=
  ⟨r + y.value, .consCombo y.uncertainty 1 .nil⟩

/-- `float * UFloat`, dispatched to `UFloat.__rmul__` (derivatives
`('y', 'x')`): the derivative with respect to the `UFloat` operand is the
scalar, which becomes the nesting weight. -/
def rmul (r : ℚ) (x : UFloat) : UFloat :=
  ⟨r * x.value, .consCombo x.uncertainty r .nil⟩

/-- One entry of `covariance_matrix` (`new/covariance.py` lines 103-115):
intersect the two atom key sets; an empty intersection short-circuits to 0,
otherwise sum `dict_i[atom] * dict_j[atom]` over the shared atoms. -/
def covEntry (d1 d2 : Uncert.Dct ℕ) : ℚ :=
  if Uncert.dkeys d1 ∩ Uncert.dkeys d2 = [] then 0
  else ((Uncert.dkeys d1 ∩ Uncert.dkeys d2).map
    (fun a => Uncert.dgetD d1 a * Uncert.dgetD d2 a)).sum

/-- `covariance_matrix(ufloats)`: the symmetric matrix filled from
`covEntry` over the pairs `i ≤ j`. -/
def covariance_matrix (us : List UFloat) :
    Fin us.length → Fin us.length → ℚ :=
  fun i j =>
    if (i : ℕ) ≤ (j : ℕ)
    then covEntry (us.get i).expanded_dict (us.get j).expanded_dict
    else covEntry (us.get j).expanded_dict (us.get i).expanded_dict

end Uncert.TopU

namespace Uncert.TopU

theorem nodup_dkeys_ucombo_dict (c : ACombo) :
    (Uncert.dkeys (get_ucombo_dict c)).Nodup :=
  Uncert.nodup_dkeys_filter _ _
    (Uncert.nodup_dkeys_expandInto c [] (by simp [Uncert.dkeys]))

/-- Looking up any atom in the pruned canonical dict returns its
mathematically accumulated weight (0 when absent). -/
theorem dgetD_get_ucombo_dict (c : ACombo) (a : ℕ) :
    Uncert.dgetD (get_ucombo_dict c) a = Uncert.accumW c a := by
  have hnody := Uncert.nodup_dkeys_expandInto c [] (by simp [Uncert.dkeys])
  rw [Uncert.dgetD, get_ucombo_dict, Uncert.dget_filter _ _ _ hnody]
  cases h : Uncert.dget (Uncert.expandInto [] c) a with
  | none =>
    have hnk := (Uncert.dget_eq_none_iff _ _).1 h
    rw [Uncert.mem_dkeys_expand_iff] at hnk
    rw [Uncert.accumW_eq_zero_of_not_mem_atoms c a hnk]
    rfl
  | some w =>
    have hw : w = Uncert.accumW c a := by
      have := Uncert.dgetD_expand c a
      rw [Uncert.dgetD, h, Option.getD_some] at this
      exact this
    by_cases hw0 : w = 0
    · rw [show (some w).bind (fun x => if (if (a, x).2 = 0 then false else true)
          = true then some x else none) = none by
          simp [Option.bind, hw0]]
      rw [← hw, hw0]
      rfl
    · rw [show (some w).bind (fun x => if (if (a, x).2 = 0 then false else true)
          = true then some x else none) = some w by
          simp [Option.bind, hw0]]
      rw [← hw]
      rfl

/-- Membership in the pruned canonical dict is exactly nonzero accumulated
weight. -/
theorem mem_dkeys_ucombo_dict (c : ACombo) (a : ℕ) :
    a ∈ Uncert.dkeys (get_ucombo_dict c) ↔ Uncert.accumW c a ≠ 0 := by
  constructor
  · intro hmem
    rcases List.mem_map.1 hmem with ⟨p, hp, hpa⟩
    have hkeep := List.of_mem_filter hp
    have hne : p.2 ≠ 0 := by
      intro h0
      rw [h0] at hkeep
      simp at hkeep
    have hraw : p ∈ Uncert.expandInto [] c := List.mem_of_mem_filter hp
    have := Uncert.weight_eq_accumW c p hraw
    rw [hpa] at this
    rw [← this]
    exact hne
  · intro hne
    have hd := dgetD_get_ucombo_dict c a
    by_contra hnm
    have : Uncert.dget (get_ucombo_dict c) a = none :=
      (Uncert.dget_eq_none_iff _ _).2 hnm
    rw [Uncert.dgetD, this] at hd
    exact hne hd.symm

/-- The support of a value: the key set of its expanded dict. -/
def UFloat.suppF (x : UFloat) : Finset ℕ :=
  (Uncert.dkeys x.expanded_dict).toFinset

theorem mem_suppF (x : UFloat) (a : ℕ) :
    a ∈ x.suppF ↔ Uncert.accumW x.uncertainty a ≠ 0 := by
  rw [UFloat.suppF, List.mem_toFinset]
  exact mem_dkeys_ucombo_dict _ a

/-- `covEntry` computes the sum of weight products over the intersection of
the two key sets. -/
theorem covEntry_eq (d1 d2 : Uncert.Dct ℕ) (h1 : (Uncert.dkeys d1).Nodup) :
    covEntry d1 d2
      = ∑ a ∈ (Uncert.dkeys d1).toFinset ∩ (Uncert.dkeys d2).toFinset,
          Uncert.dgetD d1 a * Uncert.dgetD d2 a := by
  have hfin : (Uncert.dkeys d1 ∩ Uncert.dkeys d2).toFinset
      = (Uncert.dkeys d1).toFinset ∩ (Uncert.dkeys d2).toFinset := by
    apply Finset.ext
    intro a
    simp [List.mem_inter_iff]
  by_cases hemp : Uncert.dkeys d1 ∩ Uncert.dkeys d2 = []
  · rw [covEntry, if_pos hemp]
    rw [hemp] at hfin
    rw [← hfin]
    simp
  · rw [covEntry, if_neg hemp, ← hfin,
      ← List.sum_toFinset _ (List.Nodup.inter _ h1)]

/-- `avariance` is the sum of squared accumulated weights over the keys. -/
theorem avariance_eq (d : Uncert.Dct ℕ) (h : (Uncert.dkeys d).Nodup) :
    avariance d = ∑ a ∈ (Uncert.dkeys d).toFinset, Uncert.dgetD d a ^ 2 := by
  rw [avariance]
  have := Uncert.sum_map_eq_finset_sum d (fun (_ : ℕ) (w : ℚ) => w ^ 2) h
  exact this

theorem nodup_dkeys_expanded (x : UFloat) :
    (Uncert.dkeys x.expanded_dict).Nodup :=
  nodup_dkeys_ucombo_dict x.uncertainty

theorem covEntry_expanded (x y : UFloat) :
    covEntry x.expanded_dict y.expanded_dict
      = ∑ a ∈ x.suppF ∩ y.suppF,
          Uncert.accumW x.uncertainty a * Uncert.accumW y.uncertainty a := by
  rw [covEntry_eq x.expanded_dict y.expanded_dict (nodup_dkeys_expanded x)]
  refine Finset.sum_congr rfl fun a _ => ?_
  rw [show Uncert.dgetD x.expanded_dict a = Uncert.accumW x.uncertainty a from
      dgetD_get_ucombo_dict _ a,
    show Uncert.dgetD y.expanded_dict a = Uncert.accumW y.uncertainty a from
      dgetD_get_ucombo_dict _ a]

/-- Every entry of the covariance matrix is the sum of weight products over
the shared atoms (shared helper for the covariance claims). -/
theorem covariance_matrix_entry (us : List UFloat) (i j : Fin us.length) :
    covariance_matrix us i j
      = ∑ a ∈ (us.get i).suppF ∩ (us.get j).suppF,
          Uncert.accumW (us.get i).uncertainty a
            * Uncert.accumW (us.get j).uncertainty a := by
  rw [covariance_matrix]
  by_cases hij : (i : ℕ) ≤ (j : ℕ)
  · rw [if_pos hij, covEntry_expanded]
  · rw [if_neg hij, covEntry_expanded, Finset.inter_comm]
    refine Finset.sum_congr rfl fun a _ => ?_
    ring

/-- C4: every entry `(i, j)` of `covariance_matrix` is the sum of
`weight_i[atom] * weight_j[atom]` over the atoms present in both expansions,
the diagonal is each value's variance (the radicand of its std_dev), and a
pair with disjoint atom sets yields exactly 0 (short-circuited in the code
without a per-atom sum). -/
theorem claim4_covariance_matrix (us : List UFloat) (i j : Fin us.length) :
    covariance_matrix us i j
      = ∑ a ∈ (us.get i).suppF ∩ (us.get j).suppF,
          Uncert.accumW (us.get i).uncertainty a
            * Uncert.accumW (us.get j).uncertainty a
    ∧ covariance_matrix us i i = avariance (us.get i).expanded_dict
    ∧ ((us.get i).suppF ∩ (us.get j).suppF = ∅
        → covariance_matrix us i j = 0) := by
  refine ⟨covariance_matrix_entry us i j, ?_, ?_⟩
  · rw [covariance_matrix_entry us i i, Finset.inter_self,
      avariance_eq _ (nodup_dkeys_expanded _)]
    refine Finset.sum_congr rfl fun a _ => ?_
    rw [show Uncert.dgetD (us.get i).expanded_dict a
        = Uncert.accumW (us.get i).uncertainty a from dgetD_get_ucombo_dict _ a]
    ring
  · intro hdisj
    rw [covariance_matrix_entry us i j, hdisj, Finset.sum_empty]

theorem expanded_dict_init_ne (a : ℕ) (v s : ℚ) (hs : s ≠ 0) :
    (UFloat_init a v s).expanded_dict = [(a, s)] := by
  show (Uncert.expandInto [] (.consAtom a s .nil)).filter
      (fun p => if p.2 = 0 then false else true) = [(a, s)]
  rw [show Uncert.expandInto ([] : Uncert.Dct ℕ) (.consAtom a s .nil)
      = [(a, s)] from rfl]
  rw [List.filter_cons_of_pos (by simp [hs]), List.filter_nil]

theorem expanded_dict_init_zero (a : ℕ) (v : ℚ) :
    (UFloat_init a v 0).expanded_dict = [] := by
  show (Uncert.expandInto [] (.consAtom a 0 .nil)).filter
      (fun p => if p.2 = 0 then false else true) = []
  rw [show Uncert.expandInto ([] : Uncert.Dct ℕ) (.consAtom a 0 .nil)
      = [(a, 0)] from rfl]
  rw [List.filter_cons_of_neg (by simp), List.filter_nil]

/-- C6 (amended): two values constructed independently from the identical
`(nominal, std_dev)` pair mint distinct fresh atoms and have covariance
exactly 0; they compare unequal provided the std_dev is nonzero (for
std_dev 0 both expansions are empty and the values compare equal, see the
counterexample). -/
theorem claim6_independent_same_pair (a1 a2 : ℕ) (hne : a1 ≠ a2) (v s : ℚ)
    (hs : s ≠ 0) :
    (UFloat_init a1 v s).uncertainty = .consAtom a1 s .nil
    ∧ (UFloat_init a2 v s).uncertainty = .consAtom a2 s .nil
    ∧ pyEq (UFloat_init a1 v s) (.uf (UFloat_init a2 v s)) = false
    ∧ (∀ t : ℚ, covariance_matrix [UFloat_init a1 v t, UFloat_init a2 v t]
        ⟨0, by simp⟩ ⟨1, by simp⟩ = 0) := by
  have h1 := expanded_dict_init_ne a1 v s hs
  have h2 := expanded_dict_init_ne a2 v s hs
  refine ⟨rfl, rfl, ?_, ?_⟩
  · show ufloatEq (UFloat_init a1 v s) (UFloat_init a2 v s) = false
    rw [ufloatEq, h1, h2]
    have hd : Uncert.pyDictEq [(a1, s)] [(a2, s)] = false := by
      rw [Uncert.pyDictEq, if_neg]
      rintro ⟨hl, -⟩
      have := hl (a1, s) (List.mem_singleton_self _)
      rw [Uncert.dget_cons_neg (a2, s) [] a1 (Ne.symm hne)] at this
      exact Option.noConfusion this
    rw [hd, Bool.and_false]
  · intro t
    show covEntry (UFloat_init a1 v t).expanded_dict
        (UFloat_init a2 v t).expanded_dict = 0
    by_cases ht : t = 0
    · subst ht
      rw [expanded_dict_init_zero, expanded_dict_init_zero]
      rfl
    · rw [expanded_dict_init_ne a1 v t ht, expanded_dict_init_ne a2 v t ht]
      have hint : Uncert.dkeys [(a1, t)] ∩ Uncert.dkeys [(a2, t)] = [] := by
        rw [show Uncert.dkeys [(a1, t)] = [a1] from rfl,
          show Uncert.dkeys [(a2, t)] = [a2] from rfl]
        simp [List.inter_def, hne]
      rw [covEntry, if_pos hint]

/-- Witness for C6 (amended) at ids 0 and 1, pair `(1, 1)`. -/
theorem claim6_independent_same_pair_witness :
    (UFloat_init 0 1 1).uncertainty = .consAtom 0 1 .nil
    ∧ (UFloat_init 1 1 1).uncertainty = .consAtom 1 1 .nil
    ∧ pyEq (UFloat_init 0 1 1) (.uf (UFloat_init 1 1 1)) = false
    ∧ (∀ t : ℚ, covariance_matrix [UFloat_init 0 1 t, UFloat_init 1 1 t]
        ⟨0, by simp⟩ ⟨1, by simp⟩ = 0) :=
  claim6_independent_same_pair 0 1 (by decide) 1 1 (by decide)

/-- C6 counterexample: with std_dev 0 the freshly minted atoms are pruned
from both expansions (weight 0), so two independently constructed values
from the identical pair `(1, 0)` compare equal under `UFloat.__eq__`,
refuting the claim that they always compare unequal. -/
theorem claim6_counterexample :
    pyEq (UFloat_init 0 1 0) (.uf (UFloat_init 1 1 0)) = true := by
  show ufloatEq (UFloat_init 0 1 0) (UFloat_init 1 1 0) = true
  rw [ufloatEq, expanded_dict_init_zero, expanded_dict_init_zero]
  rw [show Uncert.pyDictEq ([] : Uncert.Dct ℕ) [] = true from by
    simp [Uncert.pyDictEq]]
  simp
  rfl

/-- C9: `UFloat.__eq__` identifies values whose expansions agree regardless
of the nesting structure of their combinations, but `UFloat.__hash__` is
computed from the raw combination structure: the value with combination
`((atom, 1.0),)` and the value with the same combination nested once more,
`((((atom, 1.0),), 1.0),)`, are equal yet hash differently.  (Evaluation of
the code at the failing input; the claim that hash is consistent with
equality is refuted — a genuine bug, since Python requires equal objects to
have equal hashes.) -/
theorem claim9_hash_inconsistent_with_eq :
    pyEq (⟨5, .consAtom 0 1 .nil⟩ : UFloat)
        (.uf ⟨5, .consCombo (.consAtom 0 1 .nil) 1 .nil⟩) = true
    ∧ UFloat.hashModel ⟨5, .consAtom 0 1 .nil⟩
        ≠ UFloat.hashModel ⟨5, .consCombo (.consAtom 0 1 .nil) 1 .nil⟩ := by
  constructor
  · show ufloatEq (⟨5, .consAtom 0 1 .nil⟩ : UFloat)
        ⟨5, .consCombo (.consAtom 0 1 .nil) 1 .nil⟩ = true
    rw [ufloatEq]
    rw [show (⟨5, .consAtom 0 1 .nil⟩ : UFloat).expanded_dict = [(0, 1)] from
      expanded_dict_init_ne 0 5 1 one_ne_zero]
    have hy : (⟨5, .consCombo (.consAtom 0 1 .nil) 1 .nil⟩ : UFloat).expanded_dict
        = [(0, 1)] := by
      norm_num [UFloat.expanded_dict, get_ucombo_dict, Uncert.expandInto,
        Uncert.addScaled, Uncert.daccum, List.filter]
    rw [hy]
    rw [show Uncert.pyDictEq [((0 : ℕ), (1 : ℚ))] [(0, 1)] = true from by
      simp [Uncert.pyDictEq, Uncert.dget]]
    simp
  · intro h
    rw [UFloat.hashModel, UFloat.hashModel, Prod.mk.injEq] at h
    exact Uncert.PCombo.noConfusion h.2

/-- C10: `UFloat.__eq__` returns `False` for every operand that is not a
`UFloat` — including a plain real numerically equal to the nominal value —
and never raises (the model is a total function). -/
theorem claim10_eq_non_ufloat_false (x : UFloat) (q : ℚ) :
    pyEq x (.real q) = false
    ∧ pyEq x .other = false
    ∧ pyEq x (.real x.value) = false :=
  ⟨rfl, rfl, rfl⟩

/-- C3 (evaluation at the failing input): the top-level `UFloat.__init__`
performs no validation — constructing from std_dev `-1/2` succeeds and the
value then reports std_dev `+1/2` (`sqrt((-1/2)**2)`), while the claim and
`new/ufloat.py` require a `ValueError`; the `new/ufloat.py` constructor does
raise `ValueError` for `-1/2` and, for a non-negative std_dev, succeeds and
reports exactly that std_dev. -/
theorem claim3_negative_std_dev_validation :
    UFloat_init 0 1 (-(1/2)) = (⟨1, .consAtom 0 (-(1/2)) .nil⟩ : UFloat)
    ∧ get_std_dev (UFloat_init 0 1 (-(1/2))).expanded_dict
        = (((1 : ℚ)/2 : ℚ) : ℝ)
    ∧ NewU.UFloat_init 0 1 ⟨-(1/2), false⟩
        = Except.error NewU.PyErr.valueError
    ∧ NewU.UFloat_init 1 1 ⟨1/2, false⟩ = Except.ok (NewU.mkUFloat 1 1 (1/2))
    ∧ NewU.UFloat.std_dev (NewU.mkUFloat 1 1 (1/2))
        = NewU.RFloat.val (((1 : ℚ)/2 : ℚ) : ℝ) := by
  refine ⟨rfl, ?_, ?_, ?_, ?_⟩
  · rw [show (UFloat_init 0 1 (-(1/2))).expanded_dict = [(0, -(1/2))] from
      expanded_dict_init_ne 0 1 _ (by norm_num)]
    rw [get_std_dev]
    rw [show avariance [((0 : ℕ), -(1/2 : ℚ))] = (1/2) ^ 2 from by
      norm_num [avariance]]
    rw [show (((((1 : ℚ)/2) ^ 2 : ℚ)) : ℝ) = (((1 : ℚ)/2 : ℚ) : ℝ) ^ 2 from by
      push_cast
      ring]
    exact Real.sqrt_sq (by norm_num)
  · norm_num [NewU.UFloat_init, NewU.pyLtZero]
  · norm_num [NewU.UFloat_init, NewU.pyLtZero, NewU.mkUFloat]
  · exact NewU.mkUFloat_std_dev 1 1 (1/2) (by norm_num)

/-- The fresh unit-variance basis of `correlated_values`:
`np.array([UFloat(0, 1) for _ in range(n)])`, one fresh atom per index. -/
def ufloat_atoms (n : ℕ) : Fin n → UFloat := fun k => UFloat_init k 0 1

/-- One component of the object-array product `L @ ufloat_atoms`: numpy
computes `sum_k row[k] * atoms[k]`, multiplying through `UFloat.__rmul__`
and reducing left-to-right through `UFloat.__add__`/`__radd__`. -/
def matVecRow {n : ℕ} (row : Fin n → ℚ) (xs : Fin n → UFloat) : UFloat :=
  match List.ofFn (fun k => rmul (row k) (xs k)) with
  | [] => ⟨0, .nil⟩
  | y :: ys => ys.foldl uadd y

/-- `correlated_values(nominal_values, covariance_matrix)`
(`new/covariance.py` lines 15-76), given the decomposition matrix `L`
obtained from the external numpy routine — `np.linalg.cholesky` when the
covariance is positive-definite, `eig_vecs @ diag(sqrt(clipped eig_vals))`
otherwise: mint the fresh basis atoms, form `Y = L @ ufloat_atoms` and
return `np.array(nominal_values) + Y`.  The numpy decomposition is library
code external to this repository; it enters only through its defining
contract `L·Lᵀ = covariance` (exact, for positive-semidefinite input under
exact arithmetic, on both branches — clipping only alters genuinely
negative eigenvalues). -/
def correlated_values {n : ℕ} (means : Fin n → ℚ)
    (L : Fin n → Fin n → ℚ) : List UFloat :=
  List.ofFn (fun i => radd (means i) (matVecRow (L i) (ufloat_atoms n)))

theorem correlated_values_length {n : ℕ} (means : Fin n → ℚ)
    (L : Fin n → Fin n → ℚ) : (correlated_values means L).length = n :=
  List.length_ofFn _

theorem accumW_uadd (x y : UFloat) (a : ℕ) :
    Uncert.accumW (uadd x y).uncertainty a
      = Uncert.accumW x.uncertainty a + Uncert.accumW y.uncertainty a := by
  show 1 * Uncert.accumW x.uncertainty a
      + (1 * Uncert.accumW y.uncertainty a + 0) = _
  ring

theorem accumW_rmul (r : ℚ) (x : UFloat) (a : ℕ) :
    Uncert.accumW (rmul r x).uncertainty a
      = r * Uncert.accumW x.uncertainty a := by
  show r * Uncert.accumW x.uncertainty a + 0 = _
  ring

theorem accumW_radd (r : ℚ) (y : UFloat) (a : ℕ) :
    Uncert.accumW (radd r y).uncertainty a = Uncert.accumW y.uncertainty a := by
  show 1 * Uncert.accumW y.uncertainty a + 0 = _
  ring

theorem accumW_atom (n : ℕ) (k : Fin n) (a : ℕ) :
    Uncert.accumW (ufloat_atoms n k).uncertainty a
      = if (k : ℕ) = a then 1 else 0 := by
  show (if (k : ℕ) = a then (1 : ℚ) else 0) + 0 = _
  ring

theorem accumW_foldl_uadd (ys : List UFloat) (y : UFloat) (a : ℕ) :
    Uncert.accumW ((ys.foldl uadd y).uncertainty) a
      = Uncert.accumW y.uncertainty a
        + (ys.map (fun z => Uncert.accumW z.uncertainty a)).sum := by
  induction ys generalizing y with
  | nil => simp
  | cons z zs ih =>
    rw [List.foldl_cons, ih, accumW_uadd, List.map_cons, List.sum_cons]
    ring

theorem val_foldl_uadd (ys : List UFloat) (y : UFloat) :
    (ys.foldl uadd y).value = y.value + (ys.map UFloat.value).sum := by
  induction ys generalizing y with
  | nil => simp
  | cons z zs ih =>
    rw [List.foldl_cons, ih, List.map_cons, List.sum_cons]
    show y.value + z.value + _ = _
    ring

theorem accumW_matVecRow (n : ℕ) (row : Fin n → ℚ) (a : ℕ) :
    Uncert.accumW (matVecRow row (ufloat_atoms n)).uncertainty a
      = ∑ k : Fin n, row k * (if (k : ℕ) = a then 1 else 0) := by
  cases n with
  | zero =>
    rw [show matVecRow row (ufloat_atoms 0) = ⟨0, .nil⟩ from by
      rw [matVecRow, List.ofFn_zero]]
    simp [Uncert.accumW]
  | succ m =>
    rw [show matVecRow row (ufloat_atoms (m + 1))
        = (List.ofFn (fun k : Fin m =>
            rmul (row k.succ) (ufloat_atoms (m + 1) k.succ))).foldl uadd
          (rmul (row 0) (ufloat_atoms (m + 1) 0)) from by
      rw [matVecRow, List.ofFn_succ]]
    rw [accumW_foldl_uadd, accumW_rmul, accumW_atom, List.map_ofFn,
      List.sum_ofFn, Fin.sum_univ_succ]
    congr 1
    refine Finset.sum_congr rfl fun k _ => ?_
    show Uncert.accumW (rmul (row k.succ) (ufloat_atoms (m + 1) k.succ)).uncertainty a = _
    rw [accumW_rmul, accumW_atom]

theorem val_matVecRow (n : ℕ) (row : Fin n → ℚ) :
    (matVecRow row (ufloat_atoms n)).value = 0 := by
  cases n with
  | zero =>
    rw [show matVecRow row (ufloat_atoms 0) = ⟨0, .nil⟩ from by
      rw [matVecRow, List.ofFn_zero]]
  | succ m =>
    rw [show matVecRow row (ufloat_atoms (m + 1))
        = (List.ofFn (fun k : Fin m =>
            rmul (row k.succ) (ufloat_atoms (m + 1) k.succ))).foldl uadd
          (rmul (row 0) (ufloat_atoms (m + 1) 0)) from by
      rw [matVecRow, List.ofFn_succ]]
    rw [val_foldl_uadd, List.map_ofFn, List.sum_ofFn]
    rw [show (rmul (row 0) (ufloat_atoms (m + 1) 0)).value
        = row 0 * 0 from rfl]
    rw [show (∑ k : Fin m, (UFloat.value ∘ fun k : Fin m =>
        rmul (row k.succ) (ufloat_atoms (m + 1) k.succ)) k) = 0 from by
      refine Finset.sum_eq_zero fun k _ => ?_
      show row k.succ * 0 = 0
      ring]
    ring

theorem sum_indicator_eval (n : ℕ) (c : Fin n → ℚ) (k0 : Fin n) :
    (∑ k : Fin n, c k * (if (k : ℕ) = (k0 : ℕ) then 1 else 0)) = c k0 := by
  rw [Finset.sum_eq_single k0]
  · rw [if_pos rfl, mul_one]
  · intro b _ hb
    rw [if_neg (fun hv => hb (Fin.ext hv)), mul_zero]
  · intro habs
    exact absurd (Finset.mem_univ k0) habs

/-- C5: with `L·Lᵀ = cov` — the contract of the Cholesky branch for
positive-definite covariance and of the clipped eigendecomposition branch
for positive-semidefinite covariance — `correlated_values(means, cov)`
returns values whose nominal values are exactly the means and whose
covariance matrix is exactly `cov`. -/
theorem claim5_correlated_values_roundtrip (n : ℕ) (means : Fin n → ℚ)
    (L cov : Fin n → Fin n → ℚ)
    (hL : ∀ i j : Fin n, (∑ k : Fin n, L i k * L j k) = cov i j)
    (i j : Fin (correlated_values means L).length) :
    ((correlated_values means L).get i).value
        = means (Fin.cast (correlated_values_length means L) i)
    ∧ covariance_matrix (correlated_values means L) i j
        = cov (Fin.cast (correlated_values_length means L) i)
              (Fin.cast (correlated_values_length means L) j) := by
  have hget : ∀ k : Fin (correlated_values means L).length,
      (correlated_values means L).get k
        = radd (means (Fin.cast (correlated_values_length means L) k))
            (matVecRow (L (Fin.cast (correlated_values_length means L) k))
              (ufloat_atoms n)) := by
    intro k
    exact List.get_ofFn _ k
  constructor
  · rw [hget i]
    show means _ + (matVecRow _ (ufloat_atoms n)).value = means _
    rw [val_matVecRow]
    ring
  · set i' := Fin.cast (correlated_values_length means L) i with hi
    set j' := Fin.cast (correlated_values_length means L) j with hj
    have haccum : ∀ (r : Fin n) (a : ℕ),
        Uncert.accumW ((radd (means r)
          (matVecRow (L r) (ufloat_atoms n))).uncertainty) a
          = ∑ k : Fin n, L r k * (if (k : ℕ) = a then 1 else 0) := by
      intro r a
      rw [accumW_radd, accumW_matVecRow]
    have hvan : ∀ (r : Fin n) (a : ℕ), ¬ a < n →
        (∑ k : Fin n, L r k * (if (k : ℕ) = a then 1 else 0)) = 0 := by
      intro r a ha
      refine Finset.sum_eq_zero fun k _ => ?_
      rw [if_neg (fun hv : (k : ℕ) = a => ha (hv ▸ k.isLt)), mul_zero]
    rw [covariance_matrix_entry, hget i, hget j]
    have hsub : (radd (means i')
          (matVecRow (L i') (ufloat_atoms n))).suppF
        ∩ (radd (means j') (matVecRow (L j') (ufloat_atoms n))).suppF
        ⊆ Finset.range n := by
      intro a ha
      rcases Finset.mem_inter.1 ha with ⟨h1, -⟩
      rw [mem_suppF, haccum i'] at h1
      rw [Finset.mem_range]
      by_contra hlt
      exact h1 (hvan i' a hlt)
    rw [Finset.sum_subset hsub]
    · have hrange : (∑ a ∈ Finset.range n,
          Uncert.accumW ((radd (means i')
            (matVecRow (L i') (ufloat_atoms n))).uncertainty) a
          * Uncert.accumW ((radd (means j')
            (matVecRow (L j') (ufloat_atoms n))).uncertainty) a)
          = ∑ k : Fin n,
              Uncert.accumW ((radd (means i')
                (matVecRow (L i') (ufloat_atoms n))).uncertainty) (k : ℕ)
              * Uncert.accumW ((radd (means j')
                (matVecRow (L j') (ufloat_atoms n))).uncertainty) (k : ℕ) :=
        (Fin.sum_univ_eq_sum_range _ n).symm
      rw [hrange]
      rw [show (∑ k : Fin n,
          Uncert.accumW ((radd (means i')
            (matVecRow (L i') (ufloat_atoms n))).uncertainty) (k : ℕ)
          * Uncert.accumW ((radd (means j')
            (matVecRow (L j') (ufloat_atoms n))).uncertainty) (k : ℕ))
          = ∑ k : Fin n, L i' k * L j' k from by
        refine Finset.sum_congr rfl fun k _ => ?_
        rw [haccum i', haccum j', sum_indicator_eval, sum_indicator_eval]]
      exact hL i' j'
    · intro a _ hnm
      by_cases h1 : a ∈ (radd (means i')
          (matVecRow (L i') (ufloat_atoms n))).suppF
      · have h2 : a ∉ (radd (means j')
            (matVecRow (L j') (ufloat_atoms n))).suppF :=
          fun h2 => hnm (Finset.mem_inter.2 ⟨h1, h2⟩)
        have hz : Uncert.accumW ((radd (means j')
            (matVecRow (L j') (ufloat_atoms n))).uncertainty) a = 0 := by
          by_contra hz
          exact h2 ((mem_suppF _ a).2 hz)
        rw [hz, mul_zero]
      · have hz : Uncert.accumW ((radd (means i')
            (matVecRow (L i') (ufloat_atoms n))).uncertainty) a = 0 := by
          by_contra hz
          exact h1 ((mem_suppF _ a).2 hz)
        rw [hz, zero_mul]

/-- Witness for C5 at `n = 1`, mean 5, `L = [[2]]`, covariance `[[4]]`. -/
theorem claim5_correlated_values_roundtrip_witness :
    ((correlated_values (fun _ : Fin 1 => (5 : ℚ)) (fun _ _ => (2 : ℚ))).get
        (Fin.cast (correlated_values_length (fun _ : Fin 1 => (5 : ℚ))
            (fun _ _ => (2 : ℚ))).symm (0 : Fin 1))).value = 5
    ∧ covariance_matrix
        (correlated_values (fun _ : Fin 1 => (5 : ℚ)) (fun _ _ => (2 : ℚ)))
        (Fin.cast (correlated_values_length (fun _ : Fin 1 => (5 : ℚ))
            (fun _ _ => (2 : ℚ))).symm (0 : Fin 1))
        (Fin.cast (correlated_values_length (fun _ : Fin 1 => (5 : ℚ))
            (fun _ _ => (2 : ℚ))).symm (0 : Fin 1)) = 2 * 2 :=
  claim5_correlated_values_roundtrip 1 (fun _ => 5) (fun _ _ => 2)
    (fun _ _ => 2 * 2) (by simp [Fin.sum_univ_one])
    (Fin.cast (correlated_values_length (fun _ : Fin 1 => (5 : ℚ))
        (fun _ _ => (2 : ℚ))).symm (0 : Fin 1))
    (Fin.cast (correlated_values_length (fun _ : Fin 1 => (5 : ℚ))
        (fun _ _ => (2 : ℚ))).symm (0 : Fin 1))

end Uncert.TopU

namespace Uncert

/-- A float-level value as stored in the `float_args` list of a lifted
call: `UFloat` arguments are replaced by their nominal floats; every other
argument is passed through unchanged — a plain real, or a foreign object
such as a string (`strv`) or an array (`arrv`). -/
inductive FArg where
  | num (q : ℚ) : FArg
  | strv : FArg
  | arrv : FArg
deriving DecidableEq

/-- `UCombo(tuple(new_combo_list))` / the tuple of
`(arg.uncertainty, derivative)` pairs built by the lifting wrappers. -/
def comboOfTerms {α : Type} : List (PCombo α × ℚ) → PCombo α
  | [] => .nil
  | (c, w) :: ts => .consCombo c w (comboOfTerms ts)

end Uncert

namespace Uncert.NewU

/-- An argument of a call to a function lifted by `new/ufloat.py`'s
`ToUFunc`. -/
inductive UArg where
  | uf (x : UFloat) : UArg
  | raw (v : Uncert.FArg) : UArg
deriving DecidableEq

def UArg.isUFloat : UArg → Bool
  | .uf _ => true
  | .raw _ => false

def UArg.toFloatArg : UArg → Uncert.FArg
  | .uf x => .num x.val
  | .raw v => v

/-- `sqrt(sys.float_info.epsilon)`: epsilon is `2**-52`, so this is exactly
`2**-26`. -/
def SQRT_EPS : ℚ := 1 / 2 ^ 26

/-- `numerical_partial_derivative` of `new/ufloat.py`: central finite
difference with step `|x| * SQRT_EPS`, varying the argument at position
`i` (only ever called for a position holding a `UFloat`, whose float value
is a `num`; the junk fallback 0 covers the unreachable patterns). -/
def numDerivCentral (f : List Uncert.FArg → ℚ) (i : ℕ)
    (fargs : List Uncert.FArg) : ℚ :=
  let x : ℚ := match fargs.getD i (.num 0) with
    | .num q => q
    | _ => 0
  let dx := |x| * SQRT_EPS
  (f (fargs.set i (.num (x + dx))) - f (fargs.set i (.num (x - dx))))
    / (2 * dx)

/-- The parameter loop of `ToUFunc.__call__.wrapped` (`new/ufloat.py` lines
335-365): walk `ufloat_params` (for `ToUFuncPositional`, the positions
paired with the derivative list) in lockstep with the arguments; an
exhausted argument list is an `IndexError`, `continue`d for every remaining
parameter; a `UFloat` argument contributes an
`(arg.uncertainty_lin_combo, derivative)` term, a plain real is skipped,
and any other argument returns the `NotImplemented` signal (`none`). -/
def wrappedLoop (f : List Uncert.FArg → ℚ) (fargs : List Uncert.FArg) :
    List UArg → List (Option (List Uncert.FArg → ℚ)) → ℕ
      → Option (List (NCombo × ℚ))
  | _, [], _ => some []
  | [], _ :: _, _ => some []
  | .uf x :: as, d :: ds, i =>
      (wrappedLoop f fargs as ds (i + 1)).map
        (fun ts => (x.uncertainty_lin_combo,
          match d with
          | some g => g fargs
          | none => numDerivCentral f i fargs) :: ts)
  | .raw (.num _) :: as, _ :: ds, i => wrappedLoop f fargs as ds (i + 1)
  | .raw .strv :: _, _ :: _, _ => none
  | .raw .arrv :: _, _ :: _, _ => none

/-- The possible results of a call to a lifted function. -/
inductive WrappedRes where
  | notImpl : WrappedRes
  | plain (q : ℚ) : WrappedRes
  | uf (x : UFloat) : WrappedRes
deriving DecidableEq

/-- `ToUFunc.__call__.wrapped` of `new/ufloat.py`: replace `UFloat`
arguments by their nominal values, call `f`; if no argument was a `UFloat`
return the plain result unchanged; otherwise run the parameter loop, and
either return `NotImplemented` or wrap the nominal result with the new
combination. -/
def wrapped (f : List Uncert.FArg → ℚ)
    (ds : List (Option (List Uncert.FArg → ℚ))) (args : List UArg) :
    WrappedRes :=
  if args.any UArg.isUFloat = false then
    .plain (f (args.map UArg.toFloatArg))
  else
    match wrappedLoop f (args.map UArg.toFloatArg) args ds 0 with
    | none => .notImpl
    | some ts => .uf ⟨f (args.map UArg.toFloatArg), Uncert.comboOfTerms ts⟩

theorem wrappedLoop_none (f : List Uncert.FArg → ℚ)
    (fargs : List Uncert.FArg) :
    ∀ (as : List UArg) (ds : List (Option (List Uncert.FArg → ℚ))) (i : ℕ)
      (p : UArg × Option (List Uncert.FArg → ℚ)), p ∈ as.zip ds
        → (p.1 = .raw .strv ∨ p.1 = .raw .arrv)
        → wrappedLoop f fargs as ds i = none := by
  intro as
  induction as with
  | nil =>
    intro ds i p hp
    simp at hp
  | cons a as ih =>
    intro ds i p hp hbad
    cases ds with
    | nil => simp at hp
    | cons d ds =>
      rw [List.zip_cons_cons, List.mem_cons] at hp
      rcases hp with rfl | hp
      · rcases hbad with hb | hb
        · rw [show a = UArg.raw .strv from hb]
          rfl
        · rw [show a = UArg.raw .arrv from hb]
          rfl
      · have htail := ih ds (i + 1) p hp hbad
        cases a with
        | uf x =>
          show (wrappedLoop f fargs as ds (i + 1)).map _ = none
          rw [htail]
          rfl
        | raw v =>
          cases v with
          | num q =>
            show wrappedLoop f fargs as ds (i + 1) = none
            exact htail
          | strv => rfl
          | arrv => rfl

end Uncert.NewU

namespace Uncert.FC

/-!
Model of `ToUFunc.__call__.wrapped` of `new/func_conversion.py`, the
lifting used by `add_float_funcs_to_ufloat` to generate the arithmetic
operators.  It differs from the `new/ufloat.py` variant: non-`UFloat`,
non-real arguments are never checked explicitly; instead, after computing
each derivative, `float(derivative)` is attempted, `TypeError` is caught
and turned into `NotImplemented` (the array-operand deferral), while any
other exception — such as the `ValueError` raised by `float` applied to a
non-numeric string that a string-expression derivative like `'y'` returned
verbatim — propagates out of the lifted call. -/

/-- An argument of a call to a function lifted by `func_conversion.py`'s
`ToUFunc` (these operate on the top-level `UFloat`). -/
inductive FCArg where
  | uf (x : TopU.UFloat) : FCArg
  | raw (v : Uncert.FArg) : FCArg
deriving DecidableEq

def FCArg.isUFloat : FCArg → Bool
  | .uf _ => true
  | .raw _ => false

def FCArg.toFloatArg : FCArg → Uncert.FArg
  | .uf x => .num x.value
  | .raw v => v

/-- `float(obj)`: succeeds on numbers, raises `ValueError` on a non-numeric
string, raises `TypeError` on a multi-element array. -/
def floatConv : Uncert.FArg → Except NewU.PyErr ℚ
  | .num q => .ok q
  | .strv => .error .valueError
  | .arrv => .error .typeError

/-- Junk coercion used only where the source would feed a non-float into
arithmetic that no modelled claim exercises. -/
def qOf : Uncert.FArg → ℚ
  | .num q => q
  | _ => 0

/-- `numerical_partial_derivative` of `func_conversion.py` (same central
difference; `f` returns an arbitrary Python value here, coerced for the
arithmetic on the unexercised non-float corner). -/
def numDerivCentralFC (f : List Uncert.FArg → Uncert.FArg) (i : ℕ)
    (fargs : List Uncert.FArg) : ℚ :=
  let x : ℚ := match fargs.getD i (.num 0) with
    | .num q => q
    | _ => 0
  let dx := |x| * NewU.SQRT_EPS
  (qOf (f (fargs.set i (.num (x + dx))))
      - qOf (f (fargs.set i (.num (x - dx))))) / (2 * dx)

/-- Outcome of the argument loop of `func_conversion.py`'s `wrapped`. -/
inductive FCLoopRes where
  | terms (ts : List (TopU.ACombo × ℚ)) : FCLoopRes
  | notImpl : FCLoopRes
  | exc (e : NewU.PyErr) : FCLoopRes
deriving DecidableEq

/-- The loop over `args_kwargs_list` (`func_conversion.py` lines 140-176):
every `UFloat` argument gets a derivative — analytic if its label is in
`deriv_func_dict`, else numerical — which is then converted with
`float(...)`; `TypeError` becomes the `NotImplemented` signal, any other
exception propagates; non-`UFloat` arguments are skipped with no check. -/
def fcLoop (f : List Uncert.FArg → Uncert.FArg)
    (dfd : ℕ → Option (List Uncert.FArg → Uncert.FArg))
    (fargs : List Uncert.FArg) : List FCArg → ℕ → FCLoopRes
  | [], _ => .terms []
  | .uf x :: as, i =>
      match floatConv (match dfd i with
        | some g => g fargs
        | none => .num (numDerivCentralFC f i fargs)) with
      | .error NewU.PyErr.typeError => .notImpl
      | .error e => .exc e
      | .ok q =>
          match fcLoop f dfd fargs as (i + 1) with
          | .terms ts => .terms ((x.uncertainty, q) :: ts)
          | r => r
  | .raw _ :: as, i => fcLoop f dfd fargs as (i + 1)

/-- The possible results of a call to a function lifted by
`func_conversion.py` (an uncaught exception is a result of the call for
modelling purposes). -/
inductive FCRes where
  | notImpl : FCRes
  | plain (v : Uncert.FArg) : FCRes
  | uf (x : TopU.UFloat) : FCRes
  | exc (e : NewU.PyErr) : FCRes
deriving DecidableEq

/-- `ToUFunc.__call__.wrapped` of `new/func_conversion.py`. -/
def fcWrapped (f : List Uncert.FArg → Uncert.FArg)
    (dfd : ℕ → Option (List Uncert.FArg → Uncert.FArg))
    (args : List FCArg) : FCRes :=
  if args.any FCArg.isUFloat = false then
    .plain (f (args.map FCArg.toFloatArg))
  else
    match fcLoop f dfd (args.map FCArg.toFloatArg) args 0 with
    | .terms ts => .uf ⟨qOf (f (args.map FCArg.toFloatArg)),
        Uncert.comboOfTerms ts⟩
    | .notImpl => .notImpl
    | .exc e => .exc e

/-- The float-level `float.__mul__`: multiplies two numbers; its value on
foreign operands is irrelevant to every theorem below (the real method
returns the `NotImplemented` object, which the lifted call never uses on
the paths of interest) and is modelled as an opaque non-number. -/
def floatMulF : List Uncert.FArg → Uncert.FArg := fun l =>
  match l.getD 0 (.num 0), l.getD 1 (.num 0) with
  | .num a, .num b => .num (a * b)
  | _, _ => .arrv

/-- The derivative table of `__mul__` from `float_funcs_dict`:
`('y', 'x')` — each string evaluates to the raw other operand. -/
def mulDerivs : ℕ → Option (List Uncert.FArg → Uncert.FArg) := fun i =>
  if i = 0 then some (fun l => l.getD 1 (.num 0))
  else if i = 1 then some (fun l => l.getD 0 (.num 0))
  else none

end Uncert.FC

namespace Uncert.NewU

/-- C8 (amended): for every function lifted by `new/ufloat.py`'s `ToUFunc`,
a call with at least one `UFloat` argument and an argument at a checked
parameter position that is neither a `UFloat` nor a plain real returns the
`NotImplemented` signal rather than raising; for the operators lifted by
`new/func_conversion.py`'s `ToUFunc`, an array operand is deferred via
`NotImplemented` when `float(derivative)` raises `TypeError`. -/
theorem claim8_not_implemented_signal (f : List Uncert.FArg → ℚ)
    (ds : List (Option (List Uncert.FArg → ℚ))) (args : List UArg)
    (hu : args.any UArg.isUFloat = true)
    (p : UArg × Option (List Uncert.FArg → ℚ)) (hp : p ∈ args.zip ds)
    (hbad : p.1 = .raw .strv ∨ p.1 = .raw .arrv) :
    wrapped f ds args = .notImpl
    ∧ FC.fcWrapped FC.floatMulF FC.mulDerivs
        [.uf (TopU.UFloat_init 0 1 1), .raw .arrv] = .notImpl := by
  constructor
  · rw [wrapped, if_neg (by rw [hu]; exact fun h => Bool.noConfusion h)]
    rw [wrappedLoop_none f (args.map UArg.toFloatArg) args ds 0 p hp hbad]
  · rfl

/-- Witness for C8 at `UFloat.__mul__(x, "foo")` for the `new/ufloat.py`
lifting (derivatives `('y', 'x')` of `float.__mul__`). -/
theorem claim8_not_implemented_signal_witness :
    wrapped (fun l => match l.getD 0 (.num 0), l.getD 1 (.num 0) with
        | .num a, .num b => a * b
        | _, _ => 0)
      [some (fun _ => 0), some (fun _ => 0)]
      [.uf (mkUFloat 0 1 1), .raw .strv] = .notImpl
    ∧ FC.fcWrapped FC.floatMulF FC.mulDerivs
        [.uf (TopU.UFloat_init 0 1 1), .raw .arrv] = .notImpl :=
  claim8_not_implemented_signal
    (fun l => match l.getD 0 (.num 0), l.getD 1 (.num 0) with
      | .num a, .num b => a * b
      | _, _ => 0)
    [some (fun _ => 0), some (fun _ => 0)]
    [.uf (mkUFloat 0 1 1), .raw .strv]
    rfl
    (.raw .strv, some (fun _ => 0))
    (by simp)
    (Or.inl rfl)

/-- C8 counterexample: `UFloat.__mul__` as actually generated — lifted by
`new/func_conversion.py` from `float.__mul__` with derivative strings
`('y', 'x')` — called with a string operand: the derivative `'y'`
evaluates to the string itself, `float('foo')` raises `ValueError`, which
is not caught (only `TypeError` is), so the call raises instead of
returning `NotImplemented`. -/
theorem claim8_counterexample :
    FC.fcWrapped FC.floatMulF FC.mulDerivs
        [.uf (TopU.UFloat_init 0 1 1), .raw .strv]
      = .exc NewU.PyErr.valueError
    ∧ FC.fcWrapped FC.floatMulF FC.mulDerivs
        [.uf (TopU.UFloat_init 0 1 1), .raw .strv]
      ≠ .notImpl := by
  refine ⟨rfl, ?_⟩
  intro h
  rw [show FC.fcWrapped FC.floatMulF FC.mulDerivs
      [.uf (TopU.UFloat_init 0 1 1), .raw .strv]
      = .exc NewU.PyErr.valueError from rfl] at h
  exact FC.FCRes.noConfusion h

end Uncert.NewU

namespace Uncert.NewU

/-- Coherence of the directly modelled operators with the decorator model:
`wrapped` at the float-addition function with the evaluated derivative
table `('1', '1')`, applied to two `UFloat` operands, produces exactly the
`uadd` used by the claims about sums. -/
theorem wrapped_add_coherent (x y : UFloat) :
    wrapped (fun l => (match l.getD 0 (.num 0) with | .num q => q | _ => 0)
        + (match l.getD 1 (.num 0) with | .num q => q | _ => 0))
      [some (fun _ => 1), some (fun _ => 1)] [.uf x, .uf y]
      = .uf (uadd x y) := rfl

/-- `wrapped` at float subtraction with the evaluated derivative table
`('1', '-1')` produces exactly `usub`. -/
theorem wrapped_sub_coherent (x y : UFloat) :
    wrapped (fun l => (match l.getD 0 (.num 0) with | .num q => q | _ => 0)
        - (match l.getD 1 (.num 0) with | .num q => q | _ => 0))
      [some (fun _ => 1), some (fun _ => -1)] [.uf x, .uf y]
      = .uf (usub x y) := rfl

end Uncert.NewU
